import Mathlib

/-!
Verification of the map stage of the tf.data pipeline
(`tensorflow/core/kernels/data/map_dataset_op.cc`).

The development embeds the pieces of the source the properties below concern:
the short-circuit selection lambda built in `MapDatasetOp::MakeDataset`
(lines 62-83), the move-vector computation it relies on, and the iterator
methods `GetNextInternal` (lines 183-206), `SaveInternal` (lines 209-212) and
`RestoreInternal` (lines 214-218).

Tensor values are opaque to the map stage, so they are represented by `Nat`.
Ownership transfer (`std::move`) is made observable by two instruments:
argument slots (`Slot`) that enter a moved-from state when relocated, and a
per-push trace (`PushOp`) recording which branch of the selection loop ran.
Reading a moved-from slot or indexing out of range yields `none`
(valid-but-unspecified / undefined behaviour in the C++ source); the main
theorems show these cases never arise under the plan invariants.
-/

namespace MapDataset

/-- A tensor value.  The map stage never inspects tensor contents, so an
opaque value type suffices. -/
abbrev Tensor := Nat

/-- Error kinds carried by a non-OK `Status`; `outOfRange` is the
distinguished deliberate-termination kind tested by `errors::IsOutOfRange`. -/
inductive ErrorKind where
  | outOfRange
  | cancelled
  | invalidArgument
  | internal
  | unknown (code : Nat)
deriving DecidableEq, Repr

/-- `tensorflow::Status`: OK or an error of some kind. -/
inductive Status where
  | ok
  | error (kind : ErrorKind)
deriving DecidableEq, Repr

/-- `errors::IsOutOfRange(s)` (map_dataset_op.cc line 198). -/
def Status.isOutOfRange : Status → Bool
  | .error .outOfRange => true
  | _ => false

/-- Modelled from the spec: `ComputeMoveVector` (called at
map_dataset_op.cc line 63) is declared in a header that is not part of the
sources.  Per the spec (section 3 and section 4.1), for each plan position the
move flag is true iff that position's source index occurs exactly once across
the whole plan. -/
def ComputeMoveVector (indices : List Nat) : List Bool :=
  indices.map (fun idx => indices.count idx == 1)

/-- State of one slot of the pulled-argument vector: a live tensor, or the
valid-but-unspecified state left behind by `std::move`. -/
inductive Slot where
  | live (t : Tensor)
  | moved
deriving DecidableEq, Repr

/-- Trace entry recording which branch of the short-circuit selection loop
(map_dataset_op.cc lines 70-80) produced one output push. -/
inductive PushOp where
  | moveArg (idx : Nat)
  | copyArg (idx : Nat)
  | copyCaptured (pos : Nat)
deriving DecidableEq, Repr

/-- Whether a push relocated (transferred ownership of) its source value. -/
def PushOp.isMove : PushOp → Bool
  | .moveArg _ => true
  | _ => false

/-- The loop body of the short-circuit lambda (map_dataset_op.cc lines
70-80), consuming the plan's indices and move flags in lockstep.  `numArgs`
is `args.size()`; `slots` is the mutable argument vector; `out` and `ops`
accumulate the pushed values and the push trace.  The result is `none` when
the C++ code would read a moved-from tensor or index out of range. -/
def scRun (captured : List Tensor) (numArgs : Nat) :
    List Nat → List Bool → List Slot → List Tensor → List PushOp →
      Option (List Tensor × List Slot × List PushOp)
  | [], _, slots, out, ops => some (out, slots, ops)
  | _ :: _, [], _, _, _ => none
  | idx :: rest, mv :: mvs, slots, out, ops =>
    if idx < numArgs then
      match slots[idx]? with
      | some (Slot.live t) =>
        if mv then
          scRun captured numArgs rest mvs (slots.set idx Slot.moved)
            (out ++ [t]) (ops ++ [PushOp.moveArg idx])
        else
          scRun captured numArgs rest mvs slots
            (out ++ [t]) (ops ++ [PushOp.copyArg idx])
      | _ => none
    else
      match captured[idx - numArgs]? with
      | some t =>
        scRun captured numArgs rest mvs slots
          (out ++ [t]) (ops ++ [PushOp.copyCaptured (idx - numArgs)])
      | none => none

/-- The short-circuit `map_func` lambda installed by `MakeDataset` when the
plan is non-empty (map_dataset_op.cc lines 64-82).  It always returns
`Status::OK()`; the instrumented run additionally reports the final argument
slots and the push trace. -/
def shortCircuitMapFunc (indices : List Nat) (canMove : List Bool)
    (captured : List Tensor) (args : List Tensor) :
    Option (Status × List Tensor × List Slot × List PushOp) :=
  (scRun captured args.length indices canMove (args.map Slot.live) [] []).map
    (fun r => (Status.ok, r))

/-- The value the plan selects for one output position: a pulled argument
when the index is below the argument count, a captured (closure) value
otherwise. -/
def selectValD (captured args : List Tensor) (idx : Nat) : Tensor :=
  if idx < args.length then args.getD idx 0
  else captured.getD (idx - args.length) 0

/-- The output record the short-circuit plan assembles, in plan order. -/
def scSelect (captured args : List Tensor) (indices : List Nat) : List Tensor :=
  indices.map (selectValD captured args)

/-- The push the selection loop performs for one plan entry `idx`, when the
whole plan is `full` and its move flags come from `ComputeMoveVector full`. -/
def scOp (numArgs : Nat) (full : List Nat) (idx : Nat) : PushOp :=
  if idx < numArgs then
    (if full.count idx == 1 then PushOp.moveArg idx else PushOp.copyArg idx)
  else PushOp.copyCaptured (idx - numArgs)

/-- The push trace of the selection loop over the plan suffix `rest`. -/
def scOps (numArgs : Nat) (full rest : List Nat) : List PushOp :=
  rest.map (scOp numArgs full)

/-- Transcription of claim C2 as stated: under a non-empty plan with valid
indices and move flags computed by `ComputeMoveVector`, each output value is
the selected argument or closure value, and the selected value is relocated
exactly when the position's move flag is true (regardless of whether the
source is an argument or a closure value).  Stated for comparison with the
source embedding `shortCircuitMapFunc`. -/
def claimC2 : Prop :=
  ∀ (indices : List Nat) (captured args : List Tensor),
    indices ≠ [] →
    (∀ x ∈ indices, x < args.length + captured.length) →
    ∃ (out : List Tensor) (slots : List Slot) (ops : List PushOp),
      shortCircuitMapFunc indices (ComputeMoveVector indices) captured args
          = some (Status.ok, out, slots, ops)
        ∧ (∀ i : Nat, out[i]? = indices[i]?.map (selectValD captured args))
        ∧ (∀ (i : Nat) (mv : Bool), (ComputeMoveVector indices)[i]? = some mv →
            ∃ op : PushOp, ops[i]? = some op ∧ op.isMove = mv)

/-- One response of the upstream iterator's `GetNext` (the external upstream
interface, spec section 6): a record of pulled arguments with
`end_of_sequence = false`, end-of-sequence with an OK status, or a non-OK
status. -/
inductive UpstreamStep where
  | yield (args : List Tensor)
  | exhausted
  | fail (kind : ErrorKind)
deriving DecidableEq, Repr

/-- Result of one invocation of the node's `map_func` (the Executor's `Run`,
or the short-circuit selection): the returned status and the tensors the
invocation pushed into the caller's output vector. -/
structure RunResult where
  status : Status
  outs : List Tensor
deriving DecidableEq, Repr

/-- Everything one call to `GetNextInternal` produces: the returned status,
the `*end_of_sequence` out-parameter, the caller's output vector after the
call, the upstream iterator's remaining script, and the arguments of each
`map_func` invocation the call performed (empty iff the transformation was
not invoked). -/
structure GetNextOutcome where
  status : Status
  endOfSequence : Bool
  outTensors : List Tensor
  rest : List UpstreamStep
  mapFuncCalls : List (List Tensor)
deriving DecidableEq, Repr

/-- `Iterator::GetNextInternal` (map_dataset_op.cc lines 183-206).  The
upstream iterator is modelled by the script of responses it will produce
(an empty script behaves as a persistently exhausted upstream); `f` models
`map_func_`; `outTensors` and `eosIn` are the caller-supplied out-parameters
on entry. -/
def getNextInternal (f : List Tensor → RunResult)
    (upstream : List UpstreamStep) (outTensors : List Tensor) (eosIn : Bool) :
    GetNextOutcome :=
  match upstream with
  | [] => ⟨Status.ok, true, outTensors, [], []⟩
  | UpstreamStep.fail k :: rest => ⟨Status.error k, eosIn, outTensors, rest, []⟩
  | UpstreamStep.exhausted :: rest => ⟨Status.ok, true, outTensors, rest, []⟩
  | UpstreamStep.yield args :: rest =>
    let s := f args
    if s.status.isOutOfRange then
      ⟨Status.ok, true, outTensors ++ s.outs, rest, [args]⟩
    else
      ⟨s.status, false, outTensors ++ s.outs, rest, [args]⟩

/-- The caller-visible part of one `GetNext` call in a sequence of calls. -/
structure CallRecord where
  status : Status
  endOfSequence : Bool
  outTensors : List Tensor
  mapFuncCalls : List (List Tensor)
deriving DecidableEq, Repr

/-- `n` successive single-threaded `GetNext` calls, each entered with a fresh
empty output vector and `*end_of_sequence = false`, threading the upstream
script from call to call. -/
def getNextSeq (f : List Tensor → RunResult) :
    List UpstreamStep → Nat → List CallRecord
  | _, 0 => []
  | up, Nat.succ n =>
    let r := getNextInternal f up [] false
    ⟨r.status, r.endOfSequence, r.outTensors, r.mapFuncCalls⟩
      :: getNextSeq f r.rest n

/-- Transcription of claim C8 as stated: once some `GetNext` call in a
single-threaded sequence has reported `end_of_sequence = true`, every later
call in the sequence again reports `end_of_sequence = true` (the behavioural
content of a terminal flag that is never cleared).  Stated for comparison
with the source embedding `getNextSeq`. -/
def claimC8 : Prop :=
  ∀ (f : List Tensor → RunResult) (up : List UpstreamStep) (n i j : Nat)
    (ri rj : CallRecord),
    i < j →
    (getNextSeq f up n).get? i = some ri →
    (getNextSeq f up n).get? j = some rj →
    ri.endOfSequence = true → rj.endOfSequence = true

/-- State of the Map Iterator relevant to checkpointing: the upstream
iterator it owns (modelled, as in `getNextInternal`, by the script of its
remaining responses) and the identity of the Executor instance it owns.
Each call to `CapturedFunction::Instantiate` yields a fresh instance, so a
fresh instantiation is observable as a change of `executorGen`. -/
structure MapIteratorState where
  inputImpl : List UpstreamStep
  executorGen : Nat
deriving DecidableEq, Repr

/-- `Iterator::RestoreInternal` (map_dataset_op.cc lines 214-218):
`TF_RETURN_IF_ERROR(RestoreInput(ctx, reader, input_impl_)); return OK;`.
`upstreamRestore` models the upstream iterator's restore acting on its own
state (the reader is folded into the function); the upstream state is
updated in place and a non-OK status is propagated. -/
def restoreInternal
    (upstreamRestore : List UpstreamStep → Status × List UpstreamStep)
    (st : MapIteratorState) : Status × MapIteratorState :=
  let r := upstreamRestore st.inputImpl
  if r.1 = Status.ok then (Status.ok, { st with inputImpl := r.2 })
  else (r.1, { st with inputImpl := r.2 })

/-- A checkpoint writer: the list of entries written so far. -/
abbrev Writer := List Nat

/-- `Iterator::SaveInternal` (map_dataset_op.cc lines 209-212):
`TF_RETURN_IF_ERROR(SaveInput(writer, input_impl_)); return OK;`.
`upstreamSave` models the upstream iterator's save, which appends its own
entries to the writer. -/
def saveInternal (upstreamSave : Writer → Status × Writer)
    (writer : Writer) : Status × Writer :=
  let r := upstreamSave writer
  if r.1 = Status.ok then (Status.ok, r.2) else (r.1, r.2)

/-- Transcription of claim C4 as stated: a successful `Restore` ends with a
freshly instantiated Executor, i.e. an Executor instance different from the
one held before the call.  Stated for comparison with the source embedding
`restoreInternal`. -/
def claimC4 : Prop :=
  ∀ (upstreamRestore : List UpstreamStep → Status × List UpstreamStep)
    (st : MapIteratorState),
    (restoreInternal upstreamRestore st).1 = Status.ok →
    (restoreInternal upstreamRestore st).2.executorGen ≠ st.executorGen

theorem isOutOfRange_error_iff (k : ErrorKind) :
    (Status.error k).isOutOfRange = true ↔ k = ErrorKind.outOfRange := by
  cases k <;> simp [Status.isOutOfRange]

/-- Claim C1: when the upstream pull succeeds and the transformation runs
through the Executor, an `OutOfRange` result from `Run` is converted into
`end_of_sequence = true` with an OK status, and any other non-OK status is
returned verbatim (with `end_of_sequence` left false). -/
theorem getNext_executor_error_handling (f : List Tensor → RunResult)
    (args : List Tensor) (rest : List UpstreamStep) (out : List Tensor)
    (eosIn : Bool) (k : ErrorKind) (h : (f args).status = Status.error k) :
    (k = ErrorKind.outOfRange →
      getNextInternal f (UpstreamStep.yield args :: rest) out eosIn
        = ⟨Status.ok, true, out ++ (f args).outs, rest, [args]⟩)
    ∧ (k ≠ ErrorKind.outOfRange →
      getNextInternal f (UpstreamStep.yield args :: rest) out eosIn
        = ⟨Status.error k, false, out ++ (f args).outs, rest, [args]⟩) := by
  constructor
  · intro hk
    subst hk
    simp [getNextInternal, h, Status.isOutOfRange]
  · intro hk
    have hoor : (Status.error k).isOutOfRange = false := by
      cases k with
      | outOfRange => exact absurd rfl hk
      | _ => rfl
    simp [getNextInternal, h, hoor]

/-- Witness for C1 at concrete inputs: an `OutOfRange` result is converted
to a clean end-of-sequence, while a `cancelled` result is returned
verbatim. -/
theorem getNext_executor_error_handling_witness :
    (getNextInternal (fun _ => ⟨Status.error ErrorKind.outOfRange, []⟩)
        [UpstreamStep.yield [3]] [] false
      = ⟨Status.ok, true, [], [], [[3]]⟩)
    ∧ (getNextInternal (fun _ => ⟨Status.error ErrorKind.cancelled, []⟩)
        [UpstreamStep.yield [3]] [] false
      = ⟨Status.error ErrorKind.cancelled, false, [], [], [[3]]⟩) := by
  constructor
  · have h := getNext_executor_error_handling
      (fun _ => ⟨Status.error ErrorKind.outOfRange, []⟩) [3] [] [] false
      ErrorKind.outOfRange rfl
    simpa using h.1 rfl
  · have h := getNext_executor_error_handling
      (fun _ => ⟨Status.error ErrorKind.cancelled, []⟩) [3] [] [] false
      ErrorKind.cancelled rfl
    simpa using h.2 (by decide)

/-- Claim C3 (`ComputeMoveVector` modelled from the spec): a plan position's
move flag is true iff its source index occurs exactly once across the whole
plan; in particular the plan `[2, 0, 2]` yields `[false, true, false]`. -/
theorem computeMoveVector_unique_occurrence :
    (∀ (indices : List Nat) (i : Nat),
      (ComputeMoveVector indices)[i]?
        = indices[i]?.map (fun idx => indices.count idx == 1))
    ∧ ComputeMoveVector [2, 0, 2] = [false, true, false] := by
  constructor
  · intro indices i
    simp [ComputeMoveVector, List.getElem?_map]
  · decide

/-- Claim C4, counterexample: `RestoreInternal` contains no executor
instantiation, so a successful restore keeps the very same Executor
instance, refuting the claimed re-instantiation. -/
theorem restore_keeps_executor_instance : ¬ claimC4 := by
  intro h
  have h2 := h (fun up => (Status.ok, up)) ⟨[], 0⟩ rfl
  exact h2 rfl

/-- Claim C4 as amended: `RestoreInternal` delegates entirely to the
upstream iterator's restore — the status is the upstream restore's status,
the upstream iterator state is whatever the upstream restore produced, and
the Executor instance is left untouched. -/
theorem restore_delegates_to_upstream
    (upstreamRestore : List UpstreamStep → Status × List UpstreamStep)
    (st : MapIteratorState) :
    restoreInternal upstreamRestore st
      = ((upstreamRestore st.inputImpl).1,
          ⟨(upstreamRestore st.inputImpl).2, st.executorGen⟩) := by
  unfold restoreInternal
  by_cases h : (upstreamRestore st.inputImpl).1 = Status.ok <;> simp [h]

/-- Claim C5: when the upstream iterator reports end-of-sequence,
`GetNext` returns `end_of_sequence = true` with an OK status immediately;
the transformation is not invoked (`mapFuncCalls = []`) and the output
vector is untouched. -/
theorem getNext_upstream_exhausted (f : List Tensor → RunResult)
    (rest : List UpstreamStep) (out : List Tensor) (eosIn : Bool) :
    getNextInternal f (UpstreamStep.exhausted :: rest) out eosIn
      = ⟨Status.ok, true, out, rest, []⟩ := rfl

/-- Claim C7: `SaveInternal` delegates entirely to the upstream iterator's
save — the status is the upstream save's status and the writer content is
exactly what the upstream save produced, with nothing else written. -/
theorem save_delegates_to_upstream (upstreamSave : Writer → Status × Writer)
    (writer : Writer) :
    (saveInternal upstreamSave writer).1 = (upstreamSave writer).1
    ∧ (saveInternal upstreamSave writer).2 = (upstreamSave writer).2 := by
  unfold saveInternal
  by_cases h : (upstreamSave writer).1 = Status.ok <;> simp [h]

/-- Claim C9: end-of-sequence and error are mutually exclusive — for a call
entered with `*end_of_sequence = false`, if the call reports
`end_of_sequence = true` the status is OK, and if the status is non-OK the
call leaves `end_of_sequence` false. -/
theorem getNext_eos_ok_exclusive (f : List Tensor → RunResult)
    (up : List UpstreamStep) (out : List Tensor) :
    ((getNextInternal f up out false).endOfSequence = true →
      (getNextInternal f up out false).status = Status.ok)
    ∧ ((getNextInternal f up out false).status ≠ Status.ok →
      (getNextInternal f up out false).endOfSequence = false) := by
  cases up with
  | nil => simp [getNextInternal]
  | cons s rest =>
    cases s with
    | yield args =>
      by_cases h : ((f args).status).isOutOfRange
      · simp [getNextInternal, h]
      · simp [getNextInternal, h]
    | exhausted => simp [getNextInternal]
    | fail k => simp [getNextInternal]

/-- Witness for C9 at a concrete input: an exhausted upstream yields
`end_of_sequence = true` and the status is indeed OK. -/
theorem getNext_eos_ok_exclusive_witness :
    (getNextInternal (fun _ => ⟨Status.ok, []⟩) [UpstreamStep.exhausted]
        [] false).status = Status.ok :=
  (getNext_eos_ok_exclusive (fun _ => ⟨Status.ok, []⟩)
    [UpstreamStep.exhausted] []).1 rfl

/-- Claim C10: when the upstream pull fails, the upstream error is returned
verbatim and immediately, the transformation is not invoked
(`mapFuncCalls = []`), the caller's output vector is unmodified, and
`*end_of_sequence` is left as the upstream left it. -/
theorem getNext_upstream_error (f : List Tensor → RunResult) (k : ErrorKind)
    (rest : List UpstreamStep) (out : List Tensor) (eosIn : Bool) :
    getNextInternal f (UpstreamStep.fail k :: rest) out eosIn
      = ⟨Status.error k, eosIn, out, rest, []⟩ := rfl

/-- Claim C6: over a single-threaded sequence of calls in which every pull
yields a record and every transformation succeeds, the n-th call returns
exactly the transformation of the n-th upstream record — output order equals
upstream pull order. -/
theorem getNext_fifo (f : List Tensor → RunResult)
    (as : List (List Tensor)) (rest : List UpstreamStep)
    (h : ∀ a ∈ as, (f a).status = Status.ok) :
    getNextSeq f (as.map UpstreamStep.yield ++ rest) as.length
      = as.map (fun a => ⟨Status.ok, false, (f a).outs, [a]⟩) := by
  induction as generalizing rest with
  | nil => simp [getNextSeq]
  | cons a as ih =>
    have ha : (f a).status = Status.ok := h a (List.mem_cons_self a as)
    have hstep : getNextInternal f
        (UpstreamStep.yield a :: (as.map UpstreamStep.yield ++ rest)) [] false
        = ⟨Status.ok, false, (f a).outs, as.map UpstreamStep.yield ++ rest,
            [a]⟩ := by
      simp [getNextInternal, ha, Status.isOutOfRange]
    simp only [List.map_cons, List.cons_append, List.length_cons, getNextSeq,
      hstep]
    rw [ih rest (fun x hx => h x (List.mem_cons_of_mem _ hx))]

/-- Witness for C6 at a concrete input: two records, identity-like
transformation. -/
theorem getNext_fifo_witness :
    (∀ a ∈ [[1], [2]], ((fun a => RunResult.mk Status.ok a) a).status
        = Status.ok)
    ∧ getNextSeq (fun a => RunResult.mk Status.ok a)
        ([[1], [2]].map UpstreamStep.yield ++ []) [[1], [2]].length
      = [[1], [2]].map
          (fun a => ⟨Status.ok, false,
            ((fun a => RunResult.mk Status.ok a) a).outs, [a]⟩) :=
  ⟨by decide,
    getNext_fifo (fun a => RunResult.mk Status.ok a) [[1], [2]] [] (by decide)⟩

/-- Claim C8, counterexample: the iterator keeps no terminal flag.  With an
upstream that still has records, a deliberate-termination (`OutOfRange`)
result makes the first call report `end_of_sequence = true`, yet the second
call pulls upstream again and returns a further record with
`end_of_sequence = false`. -/
theorem getNext_no_terminal_flag : ¬ claimC8 := by
  intro h
  have h2 := h
    (fun a => if a = [1] then ⟨Status.error ErrorKind.outOfRange, []⟩
      else ⟨Status.ok, [5]⟩)
    [UpstreamStep.yield [1], UpstreamStep.yield [2]] 2 0 1
    ⟨Status.ok, true, [], [[1]]⟩ ⟨Status.ok, false, [5], [[2]]⟩
    (by decide) (by decide) (by decide) rfl
  exact absurd h2 (by decide)

/-- Claim C8 as amended: the iterator holds no terminal flag of its own, and
end-of-sequence is re-derived on every call from the upstream pull and the
transformation's status.  When the upstream is persistently exhausted, every
call reports `end_of_sequence = true` with an OK status and the
transformation is never invoked. -/
theorem getNext_persistently_exhausted (f : List Tensor → RunResult)
    (up : List UpstreamStep) (n : Nat)
    (h : ∀ s ∈ up, s = UpstreamStep.exhausted) :
    getNextSeq f up n = List.replicate n ⟨Status.ok, true, [], []⟩ := by
  induction n generalizing up with
  | zero => simp [getNextSeq]
  | succ n ih =>
    cases up with
    | nil =>
      simp only [getNextSeq, getNextInternal, List.replicate]
      rw [ih [] (by simp)]
    | cons s rest =>
      have hs : s = UpstreamStep.exhausted := h s (List.mem_cons_self s rest)
      subst hs
      simp only [getNextSeq, getNextInternal, List.replicate]
      rw [ih rest (fun x hx => h x (List.mem_cons_of_mem _ hx))]

/-- Witness for the amended C8 at a concrete input. -/
theorem getNext_persistently_exhausted_witness :
    (∀ s ∈ [UpstreamStep.exhausted], s = UpstreamStep.exhausted)
    ∧ getNextSeq (fun _ => ⟨Status.ok, []⟩) [UpstreamStep.exhausted] 2
        = List.replicate 2 ⟨Status.ok, true, [], []⟩ :=
  ⟨by decide,
    getNext_persistently_exhausted (fun _ => ⟨Status.ok, []⟩)
      [UpstreamStep.exhausted] 2 (by decide)⟩

/-- Invariant-carrying induction over the selection loop: as long as every
argument slot still referenced by the remaining plan suffix is live, the
loop completes, pushing exactly the selected values and recording exactly
the branch taken for each entry. -/
theorem scRun_characterization (captured args : List Tensor)
    (full : List Nat)
    (hvalid : ∀ x ∈ full, x < args.length + captured.length) :
    ∀ (rest : List Nat) (slots : List Slot) (out : List Tensor)
      (ops : List PushOp),
      rest <:+ full →
      slots.length = args.length →
      (∀ j, j ∈ rest → j < args.length →
        slots[j]? = some (Slot.live (args.getD j 0))) →
      ∃ slots',
        scRun captured args.length rest
            (rest.map (fun idx => full.count idx == 1)) slots out ops
          = some (out ++ scSelect captured args rest, slots',
              ops ++ scOps args.length full rest) := by
  intro rest
  induction rest with
  | nil =>
    intro slots out ops _ _ _
    exact ⟨slots, by simp [scRun, scSelect, scOps]⟩
  | cons idx rest ih =>
    intro slots out ops hsuf hlen hlive
    have hmem : idx ∈ full := hsuf.subset (List.mem_cons_self idx rest)
    have hsuf' : rest <:+ full := (List.suffix_cons idx rest).trans hsuf
    simp only [List.map_cons]
    by_cases hidx : idx < args.length
    · have hslot : slots[idx]? = some (Slot.live (args.getD idx 0)) :=
        hlive idx (List.mem_cons_self idx rest) hidx
      by_cases hcnt : full.count idx = 1
      · have hbeq : (full.count idx == 1) = true := by simp [hcnt]
        have hnotin : idx ∉ rest := by
          intro hin
          have hle : (idx :: rest).count idx ≤ full.count idx :=
            hsuf.sublist.count_le idx
          have h1 : 0 < rest.count idx := List.count_pos_iff.mpr hin
          rw [List.count_cons_self] at hle
          omega
        have hlive' : ∀ j, j ∈ rest → j < args.length →
            (slots.set idx Slot.moved)[j]?
              = some (Slot.live (args.getD j 0)) := by
          intro j hj hjlen
          have hne : idx ≠ j := fun he => hnotin (he ▸ hj)
          rw [List.getElem?_set_ne hne]
          exact hlive j (List.mem_cons_of_mem _ hj) hjlen
        obtain ⟨slots', heq⟩ := ih (slots.set idx Slot.moved)
          (out ++ [args.getD idx 0]) (ops ++ [PushOp.moveArg idx]) hsuf'
          (by rw [List.length_set]; exact hlen) hlive'
        refine ⟨slots', ?_⟩
        rw [show scRun captured args.length (idx :: rest)
            ((full.count idx == 1) :: rest.map (fun i => full.count i == 1))
            slots out ops
          = scRun captured args.length rest
              (rest.map (fun i => full.count i == 1))
              (slots.set idx Slot.moved) (out ++ [args.getD idx 0])
              (ops ++ [PushOp.moveArg idx]) from by
            rw [scRun]
            rw [if_pos hidx, hslot, hbeq]
            rfl]
        rw [heq]
        simp [scSelect, scOps, scOp, selectValD, hidx, hbeq]
      · have hbeq : (full.count idx == 1) = false := by
          simp [hcnt]
        obtain ⟨slots', heq⟩ := ih slots
          (out ++ [args.getD idx 0]) (ops ++ [PushOp.copyArg idx]) hsuf'
          hlen (fun j hj hjlen => hlive j (List.mem_cons_of_mem _ hj) hjlen)
        refine ⟨slots', ?_⟩
        rw [show scRun captured args.length (idx :: rest)
            ((full.count idx == 1) :: rest.map (fun i => full.count i == 1))
            slots out ops
          = scRun captured args.length rest
              (rest.map (fun i => full.count i == 1))
              slots (out ++ [args.getD idx 0])
              (ops ++ [PushOp.copyArg idx]) from by
            rw [scRun]
            rw [if_pos hidx, hslot, hbeq]
            rfl]
        rw [heq]
        simp [scSelect, scOps, scOp, selectValD, hidx, hbeq]
    · have hlt : idx - args.length < captured.length := by
        have := hvalid idx hmem
        omega
      have hcap : captured[idx - args.length]?
          = some (captured.getD (idx - args.length) 0) := by
        rw [List.getElem?_eq_getElem hlt, List.getD_eq_getElem captured 0 hlt]
      obtain ⟨slots', heq⟩ := ih slots
        (out ++ [captured.getD (idx - args.length) 0])
        (ops ++ [PushOp.copyCaptured (idx - args.length)]) hsuf'
        hlen (fun j hj hjlen => hlive j (List.mem_cons_of_mem _ hj) hjlen)
      refine ⟨slots', ?_⟩
      rw [show scRun captured args.length (idx :: rest)
          ((full.count idx == 1) :: rest.map (fun i => full.count i == 1))
          slots out ops
        = scRun captured args.length rest
            (rest.map (fun i => full.count i == 1))
            slots (out ++ [captured.getD (idx - args.length) 0])
            (ops ++ [PushOp.copyCaptured (idx - args.length)]) from by
          rw [scRun]
          rw [if_neg hidx, hcap]]
      rw [heq]
      simp [scSelect, scOps, scOp, selectValD, hidx]

/-- Claim C2 as amended: under a non-empty short-circuit plan with valid
source indices and move flags computed by `ComputeMoveVector`, the call
succeeds with an OK status; the i-th output value is the value selected by
`source_index[i]` from the pulled arguments (when below the argument count)
or from the bound closure list (otherwise), assembled in plan order; and a
push relocates its source value iff the position's move flag is true AND the
source is a pulled argument — a selected closure value is always duplicated,
never relocated. -/
theorem shortCircuit_projection (indices : List Nat)
    (captured args : List Tensor) (hne : indices ≠ [])
    (hvalid : ∀ x ∈ indices, x < args.length + captured.length) :
    ∃ slots' : List Slot,
      shortCircuitMapFunc indices (ComputeMoveVector indices) captured args
          = some (Status.ok, scSelect captured args indices, slots',
              scOps args.length indices indices)
        ∧ (∀ i : Nat, (scSelect captured args indices)[i]?
            = indices[i]?.map (selectValD captured args))
        ∧ (∀ i idx : Nat, indices[i]? = some idx →
            ((scOps args.length indices indices)[i]?
                = some (PushOp.moveArg idx)
              ↔ idx < args.length ∧ indices.count idx = 1)) := by
  have hlive0 : ∀ j, j ∈ indices → j < args.length →
      (args.map Slot.live)[j]? = some (Slot.live (args.getD j 0)) := by
    intro j _ hjlen
    rw [List.getElem?_map, List.getElem?_eq_getElem hjlen,
      List.getD_eq_getElem args 0 hjlen]
    rfl
  obtain ⟨slots', heq⟩ := scRun_characterization captured args indices hvalid
    indices (args.map Slot.live) [] [] List.suffix_rfl (by simp) hlive0
  refine ⟨slots', ?_, ?_, ?_⟩
  · simp only [shortCircuitMapFunc, ComputeMoveVector]
    rw [heq]
    simp
  · intro i
    simp [scSelect, List.getElem?_map]
  · intro i idx hi
    rw [scOps, List.getElem?_map, hi]
    by_cases hidx : idx < args.length
    · by_cases hcnt : indices.count idx = 1
      · simp [scOp, hidx, hcnt]
      · simp [scOp, hidx, hcnt]
    · simp [scOp, hidx]

/-- Witness for the amended C2 at a concrete input: a two-position plan
projecting both pulled arguments, each movable. -/
theorem shortCircuit_projection_witness :
    (([0, 1] : List Nat) ≠ []
      ∧ ∀ x ∈ ([0, 1] : List Nat),
          x < ([10, 20] : List Tensor).length + ([] : List Tensor).length)
    ∧ ∃ slots' : List Slot,
      shortCircuitMapFunc [0, 1] (ComputeMoveVector [0, 1]) [] [10, 20]
          = some (Status.ok, scSelect [] [10, 20] [0, 1], slots',
              scOps ([10, 20] : List Tensor).length [0, 1] [0, 1])
        ∧ (∀ i : Nat, (scSelect [] [10, 20] [0, 1])[i]?
            = (([0, 1] : List Nat))[i]?.map (selectValD [] [10, 20]))
        ∧ (∀ i idx : Nat, (([0, 1] : List Nat))[i]? = some idx →
            ((scOps ([10, 20] : List Tensor).length [0, 1] [0, 1])[i]?
                = some (PushOp.moveArg idx)
              ↔ idx < ([10, 20] : List Tensor).length
                  ∧ ([0, 1] : List Nat).count idx = 1)) :=
  ⟨⟨by decide, by decide⟩,
    shortCircuit_projection [0, 1] [] [10, 20] (by decide) (by decide)⟩

/-- Claim C2, counterexample: for the plan `[0]` with no pulled arguments
and one closure value, `ComputeMoveVector` marks the position movable
(`can_move = [true]`), yet the selection loop duplicates the closure value
(`copyCaptured`) instead of relocating it — refuting the claim that a
selected value is relocated whenever `can_move` is true. -/
theorem shortCircuit_closure_never_relocated : ¬ claimC2 := by
  intro h
  obtain ⟨out, slots, ops, heq, _, hmv⟩ :=
    h [0] [7] [] (by decide) (by decide)
  have hcomp : shortCircuitMapFunc [0] (ComputeMoveVector [0]) [7] []
      = some (Status.ok, [7], [], [PushOp.copyCaptured 0]) := by decide
  rw [hcomp] at heq
  simp only [Option.some.injEq, Prod.mk.injEq] at heq
  obtain ⟨-, hout, hslots, hops⟩ := heq
  obtain ⟨op, hop, hismv⟩ := hmv 0 true (by decide)
  rw [← hops] at hop
  simp only [List.getElem?_cons_zero, Option.some.injEq] at hop
  rw [← hop] at hismv
  exact absurd hismv (by decide)

end MapDataset
